import Mathlib

/-!
Verification of the audit orchestration engine of `periodic-audit`.

The Rust sources are shallowly embedded:
* Rust `String` / `&str` values scanned character by character are modelled
  as `List Char`; strings that are only carried around (messages, paths)
  are modelled as Lean `String`.
* `str::trim` is modelled by `trimChars` over `Char.isWhitespace`.
* Machine integers that can go negative (`indent : i32`) are modelled as
  `Int`; counters that stay small (`tries : u32`, `u64` durations) as `Nat`
  (all reachable values are far below any overflow boundary).
* Fallible operations return `Except`.
-/

namespace PeriodicAudit

/-! ### JSON stream splitter (src/audit.rs, `split_json_parts`) -/

/-- Rust `char::is_whitespace` as used by `str::trim` (modelled with Lean's
`Char.isWhitespace`; the two agree on all ASCII whitespace). -/
def isWs (c : Char) : Bool := c.isWhitespace

/-- Rust `str::trim`: drop whitespace from both ends. -/
def trimChars (l : List Char) : List Char :=
  ((l.dropWhile isWs).reverse.dropWhile isWs).reverse

/-- The mutable scan state of `split_json_parts`:
accumulated `parts`, the current `part` buffer, the brace `indent` counter,
the `in_string` flag and the `escape` flag. -/
structure SplitSt where
  parts : List (List Char)
  part : List Char
  indent : Int
  inString : Bool
  escape : Bool
deriving Repr, DecidableEq

/-- One iteration of the `for c in input.chars()` loop of `split_json_parts`. -/
def splitStep (st : SplitSt) (c : Char) : SplitSt :=
  if st.escape then
    { st with part := st.part ++ [c], escape := false }
  else if c = '\\' then
    if st.inString then
      { st with part := st.part ++ [c], escape := true }
    else
      { st with part := st.part ++ [c] }
  else if c = '\"' then
    { st with part := st.part ++ [c], inString := !st.inString }
  else if c = '{' then
    if st.inString then
      { st with part := st.part ++ [c] }
    else
      { st with part := st.part ++ [c], indent := st.indent + 1 }
  else if c = '}' then
    if st.inString then
      { st with part := st.part ++ [c] }
    else
      let indent' := st.indent - 1
      if indent' ≤ 0 then
        let ptrim := trimChars (st.part ++ [c])
        { st with
          parts := st.parts ++ (if ptrim = [] then [] else [ptrim]),
          part := [],
          indent := 0 }
      else
        { st with part := st.part ++ [c], indent := indent' }
  else
    { st with part := st.part ++ [c] }

/-- The initial scan state of `split_json_parts`. -/
def initSplitSt : SplitSt :=
  { parts := [], part := [], indent := 0, inString := false, escape := false }

/-- Running the scan loop over a character sequence. -/
def runSplit (st : SplitSt) (l : List Char) : SplitSt :=
  l.foldl splitStep st

/-- `split_json_parts` from src/audit.rs.  The `expectedNrParts` argument is
only a capacity hint in the source and does not influence the result. -/
def split_json_parts (input : List Char) (_expectedNrParts : Nat) :
    Except String (List (List Char)) :=
  let st := runSplit initSplitSt input
  if st.escape then
    .error "Trailing backslash in JSON data."
  else if st.inString then
    .error "Unterminated string in JSON data."
  else if st.indent ≠ 0 then
    .error ("Mismatched braces in JSON data (indent = " ++ toString st.indent ++ ").")
  else if trimChars st.part ≠ [] then
    .error "Trailing garbage at end of JSON data."
  else
    .ok st.parts

/-! ### A grammar for well-formed JSON object literals

Modelled from the spec: claim C1 quantifies over "well-formed concatenations
of N JSON object literals".  `Json` is (a superset of) the RFC 8259 grammar
of JSON texts, as a predicate on character sequences: strings are delimited
by unescaped quotes with backslash escape pairs inside, numbers and the
`true`/`false`/`null` literals consist of characters that are neither braces
nor quotes nor backslashes, objects and arrays nest, and whitespace may
appear between tokens. -/

/-- Every character of `l` is whitespace. -/
def wsOnly (l : List Char) : Prop := ∀ c ∈ l, isWs c = true

instance : DecidablePred wsOnly := fun l => by unfold wsOnly; infer_instance

/-- A character that the scanner treats as plain text outside strings. -/
def safeChar (c : Char) : Prop := c ≠ '{' ∧ c ≠ '}' ∧ c ≠ '\"' ∧ c ≠ '\\'

instance : DecidablePred safeChar := fun c => by unfold safeChar; infer_instance

/-- Contents of a JSON string literal (between the delimiting quotes):
a sequence of non-quote non-backslash characters and backslash escape
pairs. -/
inductive StrContent : List Char → Prop where
  | nil : StrContent []
  | chr {c : Char} {s : List Char} :
      c ≠ '\"' → c ≠ '\\' → StrContent s → StrContent (c :: s)
  | esc {c : Char} {s : List Char} : StrContent s → StrContent ('\\' :: c :: s)

/-- Character sequences that are "neutral" for the scanner when it is outside
a string at positive brace depth: plain characters, complete string
literals and properly nested complete brace groups, concatenated. -/
inductive Neutral : List Char → Prop where
  | nil : Neutral []
  | safe {c : Char} {s : List Char} : safeChar c → Neutral s → Neutral (c :: s)
  | str {cs s : List Char} :
      StrContent cs → Neutral s → Neutral ('\"' :: cs ++ '\"' :: s)
  | brace {inner s : List Char} :
      Neutral inner → Neutral s → Neutral ('{' :: inner ++ '}' :: s)

/-- Characters allowed in a (superset of RFC 8259) JSON number token. -/
def numChar (c : Char) : Prop :=
  c ∈ ['-', '+', '.', 'e', 'E', '0', '1', '2', '3', '4', '5', '6', '7', '8', '9']

/-- Grammar kinds of the JSON grammar. -/
inductive JKind where
  | val | obj | members | member | arr | elements | element

/-- The JSON grammar (RFC 8259 `value`, `object`, `members`, `member`,
`array`, `elements`, `element`), as a predicate on character sequences. -/
inductive Json : JKind → List Char → Prop where
  | vStr {cs} : StrContent cs → Json .val ('\"' :: cs ++ ['\"'])
  | vNum {s} : s ≠ [] → (∀ c ∈ s, numChar c) → Json .val s
  | vTrue : Json .val ['t', 'r', 'u', 'e']
  | vFalse : Json .val ['f', 'a', 'l', 's', 'e']
  | vNull : Json .val ['n', 'u', 'l', 'l']
  | vObj {s} : Json .obj s → Json .val s
  | vArr {s} : Json .arr s → Json .val s
  | objEmpty {w} : wsOnly w → Json .obj ('{' :: w ++ ['}'])
  | objMembers {m} : Json .members m → Json .obj ('{' :: m ++ ['}'])
  | membersOne {m} : Json .member m → Json .members m
  | membersCons {m ms} :
      Json .member m → Json .members ms → Json .members (m ++ ',' :: ms)
  | memberMk {w1 cs w2 e} :
      wsOnly w1 → StrContent cs → wsOnly w2 → Json .element e →
      Json .member (w1 ++ '\"' :: cs ++ '\"' :: w2 ++ ':' :: e)
  | arrEmpty {w} : wsOnly w → Json .arr ('[' :: w ++ [']'])
  | arrElems {es} : Json .elements es → Json .arr ('[' :: es ++ [']'])
  | elementsOne {e} : Json .element e → Json .elements e
  | elementsCons {e es} :
      Json .element e → Json .elements es → Json .elements (e ++ ',' :: es)
  | elementMk {w1 v w2} :
      wsOnly w1 → Json .val v → wsOnly w2 → Json .element (w1 ++ v ++ w2)

/-- A well-formed JSON object literal, as a character sequence. -/
def JsonObjectText (s : List Char) : Prop := Json .obj s

/-- The concatenation of object literals, each followed by its trailing
whitespace run. -/
def concatObjs (objs : List (List Char × List Char)) : List Char :=
  (objs.map fun p => p.1 ++ p.2).flatten

/-! ### The scan described by the specification (for claim C4)

Modelled from the spec: "a single left-to-right scan maintaining (a) a
brace-depth counter, incremented on `{` and decremented on `}`, counted only
when not inside a quoted string; (b) an in-string flag toggled by unescaped
quotes; (c) an escape flag that consumes exactly the character following a
backslash inside a string".  Unlike the implementation, this cumulative
depth counter is never clamped at part boundaries. -/

structure SpecScanSt where
  depth : Int
  inString : Bool
  escape : Bool
deriving Repr, DecidableEq

/-- One step of the scan described by the spec. -/
def specStep (st : SpecScanSt) (c : Char) : SpecScanSt :=
  if st.escape then
    { st with escape := false }
  else if st.inString then
    if c = '\\' then { st with escape := true }
    else if c = '\"' then { st with inString := false }
    else st
  else
    if c = '\"' then { st with inString := true }
    else if c = '{' then { st with depth := st.depth + 1 }
    else if c = '}' then { st with depth := st.depth - 1 }
    else st

def initSpecScanSt : SpecScanSt := { depth := 0, inString := false, escape := false }

/-- The cumulative scan of the spec over a whole input. -/
def specRun (input : List Char) : SpecScanSt :=
  input.foldl specStep initSpecScanSt

/-- One spec-scan step that also tracks whether the cumulative depth has
stayed nonnegative so far. -/
def checkedStep (acc : SpecScanSt × Bool) (c : Char) : SpecScanSt × Bool :=
  (specStep acc.1 c, acc.2 && decide (0 ≤ (specStep acc.1 c).depth))

/-- The spec scan from an arbitrary start state, together with a flag that
records whether the cumulative depth was nonnegative after every step. -/
def checkedFold (sp : SpecScanSt) (input : List Char) : SpecScanSt × Bool :=
  input.foldl checkedStep (sp, true)

/-- The spec scan together with a flag that records whether the cumulative
depth was nonnegative after every prefix of the input. -/
def specRunChecked (input : List Char) : SpecScanSt × Bool :=
  checkedFold initSpecScanSt input

/-! ### Report model (src/report.rs)

The `DateTime<Utc>` timestamp is modelled as an abstract instant `Nat`;
its chrono rendering `format("%+")` is an abstract function argument of
`Report.render`. -/

structure ReportEntry where
  path : String
  vulnerable : Bool
  json : String
  json_pretty : String
deriving Repr, DecidableEq

structure Report where
  stamp : Nat
  entries : List ReportEntry
  messages : List String
  failed : Bool
  vulnerable : Bool
deriving Repr, DecidableEq

/-- `Report::new`. -/
def Report.new (stamp : Nat) : Report :=
  { stamp := stamp, entries := [], messages := [], failed := false,
    vulnerable := false }

/-- `Report::add`. -/
def Report.add (r : Report) (entry : ReportEntry) : Report :=
  { r with vulnerable := r.vulnerable || entry.vulnerable,
           entries := r.entries ++ [entry] }

/-- `Report::add_message`. -/
def Report.add_message (r : Report) (msg : String) : Report :=
  { r with messages := r.messages ++ [msg] }

/-- `Report::fail`: clone the receiver, set `failed`, append the message. -/
def Report.fail (r : Report) (message : String) : Report :=
  Report.add_message { r with failed := true } message

/-- Reports reachable through the public constructors and operations
`new`, `add`, `add_message` and `fail`. -/
inductive ReportReachable : Report → Prop where
  | new (stamp : Nat) : ReportReachable (Report.new stamp)
  | add {r : Report} (entry : ReportEntry) :
      ReportReachable r → ReportReachable (r.add entry)
  | add_message {r : Report} (msg : String) :
      ReportReachable r → ReportReachable (r.add_message msg)
  | fail {r : Report} (msg : String) :
      ReportReachable r → ReportReachable (r.fail msg)

/-- `impl Display for Report` (src/report.rs): the rendered textual form.
`fmtDate` abstracts `self.stamp.format("%+")`. -/
def Report.render (fmtDate : Nat → String) (r : Report) : String :=
  (if r.failed then
    "[" ++ fmtDate r.stamp ++ "] Audit FAILED.\n"
   else
    "[" ++ fmtDate r.stamp ++ "] Audit results:\n" ++
      String.join (r.entries.map (fun entry =>
        "  " ++ entry.path ++ ": " ++
          (if entry.vulnerable then "VULNERABLE" else "Ok") ++ "\n")) ++
      "\n") ++
  String.join (r.messages.map (fun msg => msg ++ "\n")) ++
  (if !r.failed then
    String.join ((r.entries.filter (fun e => e.vulnerable)).map (fun entry =>
      "\n\n" ++ entry.path ++ ":\n" ++ entry.json_pretty ++ "\n"))
   else "")

/-! Modelled from the spec (claim C7): the rendered form is claimed to
consist of a header, one line per entry, all messages, and — only for
non-failed reports — a JSON detail block per vulnerable entry. -/

/-- The outcome-classifying header of the claimed rendering. -/
def claimHeader (fmtDate : Nat → String) (r : Report) : String :=
  if r.failed then "[" ++ fmtDate r.stamp ++ "] Audit FAILED.\n"
  else "[" ++ fmtDate r.stamp ++ "] Audit results:\n"

/-- One line per entry: the entry's path and Ok or VULNERABLE. -/
def claimEntryLine (entry : ReportEntry) : String :=
  "  " ++ entry.path ++ ": " ++
    (if entry.vulnerable then "VULNERABLE" else "Ok") ++ "\n"

/-- All entry lines of the claimed rendering. -/
def claimEntryLines (r : Report) : String :=
  String.join (r.entries.map (fun entry => claimEntryLine entry))

/-- All accumulated messages of the claimed rendering. -/
def claimMessageLines (r : Report) : String :=
  String.join (r.messages.map (fun msg => msg ++ "\n"))

/-- The pretty-printed JSON detail blocks, one per vulnerable entry, each
preceded by its path. -/
def claimDetailBlocks (r : Report) : String :=
  String.join ((r.entries.filter (fun e => e.vulnerable)).map (fun entry =>
    "\n\n" ++ entry.path ++ ":\n" ++ entry.json_pretty ++ "\n"))

/-! ### Audit invoker and binary enumerator (src/audit.rs, `audit_binaries`)

The asynchronous filesystem and subprocess effects are abstracted into an
`AuditEnv` value describing the outcomes the Rust code observes; the
serde_json library functions are abstracted into a `JsonLib` record. -/

/-- File types distinguishable from `std::fs::Metadata`. -/
inductive FType where
  | dir
  | regular
  | symlink
  | other
deriving Repr, DecidableEq

/-- One successfully stat-ed directory entry: its path, file type and Unix
permission mode bits. -/
structure DirEnt where
  path : String
  ftype : FType
  mode : Nat
deriving Repr, DecidableEq

/-- One turn of the `read_dir` iteration: `next_entry` may fail, the
entry's `metadata` may fail, or an entry is produced. -/
inductive DirStep where
  | nextErr (e : String)
  | metaErr (e : String)
  | ent (d : DirEnt)
deriving Repr, DecidableEq

/-- What `tokio::fs::metadata` and `read_dir` observe for one configured
path.  A `file` node (an existing non-directory) carries its permission
mode bits, which the code never inspects. -/
inductive FsNode where
  | notFound
  | statError (e : String)
  | file (mode : Nat)
  | dirOpenError (e : String)
  | dir (steps : List DirStep)
deriving Repr, DecidableEq

/-- `let add = !meta.is_dir() && (meta.permissions().mode() & 0o111) != 0`. -/
def dirEntryAdd (d : DirEnt) : Bool :=
  decide (d.ftype ≠ FType.dir) && decide (d.mode &&& 0o111 ≠ 0)

/-- The `while let Some(e) = dir.next_entry()` loop body of the directory
branch of `audit_binaries`. -/
def enumDirSteps (report : Report) (p : String) :
    List DirStep → List String → Except Report (List String)
  | [], bins => .ok bins
  | .nextErr e :: _, _ =>
      .error (report.fail
        ("Error reading directory entry in '" ++ p ++ "': " ++ e))
  | .metaErr e :: _, _ =>
      .error (report.fail
        ("Error stating directory entry in '" ++ p ++ "': " ++ e))
  | .ent d :: rest, bins =>
      enumDirSteps report p rest (if dirEntryAdd d then bins ++ [d.path] else bins)

/-- The `for p in paths` enumeration loop of `audit_binaries`. -/
def enumerate_bins :
    List (String × FsNode) → Report → List String →
      Except Report (Report × List String)
  | [], report, bins => .ok (report, bins)
  | (p, node) :: rest, report, bins =>
      match node with
      | .notFound =>
          enumerate_bins rest
            (report.add_message ("WARNING: '" ++ p ++ "' does not exist; skipped."))
            bins
      | .statError e =>
          enumerate_bins rest
            (report.add_message
              ("WARNING: Failed to stat path '" ++ p ++ "': " ++ e ++ "; skipped."))
            bins
      | .file _ => enumerate_bins rest report (bins ++ [p])
      | .dirOpenError e =>
          .error (report.fail ("Error reading directory '" ++ p ++ "': " ++ e))
      | .dir steps =>
          match enumDirSteps report p steps bins with
          | .error e => .error e
          | .ok bins' => enumerate_bins rest report bins'

deriving instance DecidableEq for Except

/-- The output of the spawned cargo-audit subprocess, after capturing:
the exit code, and the `String::from_utf8` decodings of stdout/stderr. -/
structure CmdOutput where
  exitCode : Option Int
  stdout : Except String String
  stderr : Except String String
deriving Repr, DecidableEq

/-- The effects one run of `audit_binaries` observes: the filesystem state
of each configured path, the result of `cmd.output()`, and the `Utc::now()`
instant of `Report::new`. -/
structure AuditEnv where
  nodes : List (String × FsNode)
  output : Except String CmdOutput
  stamp : Nat

/-- The serde_json operations used by `audit_binaries`, abstracted:
`from_str`, `to_string_pretty`, and reading
`pointer("/vulnerabilities/found").and_then(as_bool).unwrap_or(false)`. -/
structure JsonLib (V : Type) where
  from_str : String → Except String V
  to_string_pretty : V → Except String String
  vulnerabilities_found : V → Bool

/-- The configuration fields `audit_binaries` consults. -/
structure Config where
  exe : String
  debug : Bool

/-- Rust `str::trim` on the `String` model. -/
def trimStr (s : String) : String := String.mk (trimChars s.data)

/-- The `for (path, json_part) in bins.iter().zip(parts)` decode loop of
`audit_binaries`. -/
def auditParts {V : Type} (lib : JsonLib V) :
    List (String × String) → Report → Except Report Report
  | [], report => .ok report
  | (path, json_part) :: rest, report =>
      match lib.from_str (trimStr json_part) with
      | .error e =>
          .error (report.fail ("Parse cargo-audit JSON output: " ++ e))
      | .ok audit_result =>
          match lib.to_string_pretty audit_result with
          | .error e =>
              .error (report.fail ("Format cargo-audit JSON output: " ++ e))
          | .ok json_pretty =>
              auditParts lib rest
                (report.add
                  { path := path,
                    vulnerable := lib.vulnerabilities_found audit_result,
                    json := json_part, json_pretty := json_pretty })

/-- The `if config.cargo_audit().debug()` exit-status diagnostic of
`audit_binaries`. -/
def debugReport (config : Config) (out : CmdOutput) (report : Report) : Report :=
  if config.debug then
    match out.exitCode with
    | some code =>
        report.add_message ("cargo-audit exited with code " ++ toString code)
    | none => report.add_message "cargo-audit exited due to signal"
  else report

/-- `audit_binaries` from src/audit.rs: enumerate candidate binaries, run
cargo-audit, split and decode its output, and accumulate a `Report`;
`Err(report)` is the early-exit error path of the Rust `?` operators. -/
def audit_binaries {V : Type} (config : Config) (lib : JsonLib V)
    (env : AuditEnv) : Except Report Report :=
  match enumerate_bins env.nodes (Report.new env.stamp) [] with
  | .error e => .error e
  | .ok (report, bins) =>
    if bins.isEmpty then
      .ok (report.add_message
        "WARNING: No existing paths to audit; cargo-audit skipped.")
    else
      match env.output with
      | .error e =>
          .error (report.fail
            ("Error executing cargo-audit (" ++ config.exe ++ "): " ++ e))
      | .ok out =>
        match out.stdout with
        | .error e =>
            .error (report.fail ("Parse cargo-audit stdout as UTF-8: " ++ e))
        | .ok stdout =>
          match split_json_parts stdout.data bins.length with
          | .error e =>
              .error ((debugReport config out report).fail
                ("Split cargo-audit JSON output: " ++ e))
          | .ok partsChars =>
            if (partsChars.map (fun l => String.mk l)).length ≠ bins.length then
              .error ((debugReport config out report).fail
                ("cargo-audit returned " ++
                  toString (partsChars.map (fun l => String.mk l)).length ++
                  " JSON object(s) but " ++ toString bins.length ++
                  " binary(ies) were audited"))
            else
              match auditParts lib
                  (bins.zip (partsChars.map (fun l => String.mk l)))
                  (debugReport config out report) with
              | .error e => .error e
              | .ok report =>
                match out.stderr with
                | .error e =>
                    .error (report.fail
                      ("Parse cargo-audit stderr as UTF-8: " ++ e))
                | .ok stderr =>
                    .ok (if trimStr stderr ≠ "" then
                        report.add_message ("cargo-audit stderr:\n" ++ stderr)
                      else report)

/-! ### Retry scheduler (src/main.rs, `async_main` lines 59-84) -/

/-- The result of one call of `audit_binaries`: `Ok(report)` or
`Err(report)`. -/
inductive AttemptResult where
  | ok (report : Report)
  | err (report : Report)
deriving Repr, DecidableEq

/-- The report carried by an attempt result. -/
def AttemptResult.report : AttemptResult → Report
  | .ok r => r
  | .err r => r

/-- Whether the retry loop treats this attempt as failed: an `Err` report,
or an `Ok` report with `failed = true`. -/
def AttemptResult.isFailure : AttemptResult → Bool
  | .ok r => r.failed
  | .err _ => true

/-- `let mut dur = (1_u64 << (tries - 1)) * 2; dur = dur.min(120)`.
All reachable `tries` values are at most 29, far below any `u64`
overflow. -/
def backoff (tries : Nat) : Nat :=
  min ((1 <<< (tries - 1)) * 2) 120

/-- What the retry loop produces: the final report, the number of attempts
performed, and the sequence of backoff sleeps, in order. -/
structure RetryOutcome where
  report : Report
  nAttempts : Nat
  sleeps : List Nat
deriving Repr, DecidableEq

/-- The `loop` of `async_main`, started with the attempt counter at `i`:
run attempt `i`; break on a non-failed `Ok` report; otherwise increment the
counter, give up once it reaches `m`, else sleep and loop.  `attempt i` is
the result of the `i`-th (0-indexed) call of `audit_binaries`. -/
def retryFrom (attempt : Nat → AttemptResult) (m : Nat) (i : Nat) :
    RetryOutcome :=
  let r := attempt i
  if r.isFailure = false then
    { report := r.report, nAttempts := 1, sleeps := [] }
  else if h : i + 1 ≥ m then
    { report := r.report, nAttempts := 1, sleeps := [] }
  else
    let rest := retryFrom attempt m (i + 1)
    { report := rest.report, nAttempts := rest.nAttempts + 1,
      sleeps := backoff (i + 1) :: rest.sleeps }
termination_by m - i
decreasing_by omega

/-- The whole retry loop of `async_main`: the attempt bound is
`conf.cargo_audit.tries().min(30)`. -/
def run_retry (tries_config : Nat) (attempt : Nat → AttemptResult) :
    RetryOutcome :=
  retryFrom attempt (min tries_config 30) 0

/-! Modelled from the spec (claim C8): the claimed directory filter admits
only regular files with at least one execute-permission bit. -/

/-- The spec's claimed inclusion condition for a directory entry. -/
def claimDirIncluded (d : DirEnt) : Bool :=
  decide (d.ftype = FType.regular) && decide (d.mode &&& 0o111 ≠ 0)

/-! Concrete sample environments used to evaluate `audit_binaries` at
specific inputs. -/

/-- A configuration with the debug diagnostics off. -/
def sampleConfig : Config := { exe := "cargo-audit", debug := false }

/-- A JSON library stub whose decode always succeeds. -/
def stubJsonLib : JsonLib Unit :=
  { from_str := fun _ => .ok (),
    to_string_pretty := fun _ => .ok "pretty",
    vulnerabilities_found := fun _ => false }

/-- One audited binary; cargo-audit emits one JSON object on stdout but its
stderr is not valid UTF-8. -/
def stderrUtf8Env : AuditEnv :=
  { nodes := [("bin1", .file 0o755)],
    output := .ok
      { exitCode := some 0,
        stdout := .ok "\x7b\x7d",
        stderr := .error "invalid utf-8" },
    stamp := 0 }

/-- The Report that `audit_binaries` returns on the stderr-decode-failure
path of `stderrUtf8Env`: note that it retains the entry decoded earlier in
the same attempt. -/
def keptReport : Report :=
  { stamp := 0,
    entries := [{ path := "bin1", vulnerable := false,
                  json := "\x7b\x7d", json_pretty := "pretty" }],
    messages := ["Parse cargo-audit stderr as UTF-8: invalid utf-8"],
    failed := true, vulnerable := false }

/-- One audited binary; cargo-audit emits no JSON objects at all. -/
def mismatchEnv : AuditEnv :=
  { nodes := [("bin1", .file 0o755)],
    output := .ok
      { exitCode := some 0,
        stdout := .ok "",
        stderr := .ok "" },
    stamp := 0 }

theorem ws_safe {c : Char} (h : isWs c = true) : safeChar c := by
  simp only [isWs, Char.isWhitespace, Bool.or_eq_true, decide_eq_true_eq] at h
  rcases h with ((h | h) | h) | h <;> subst h <;> decide

theorem neutral_append {a b : List Char} (ha : Neutral a) (hb : Neutral b) :
    Neutral (a ++ b) := by
  induction ha with
  | nil => simpa using hb
  | safe hc _ ih => exact Neutral.safe hc ih
  | str hcs _ ih =>
      have h := Neutral.str hcs ih
      simpa [List.append_assoc] using h
  | brace h1 _ ih1 ih2 =>
      have h := Neutral.brace h1 ih2
      simpa [List.append_assoc] using h

theorem neutral_of_safe {s : List Char} (h : ∀ c ∈ s, safeChar c) : Neutral s := by
  induction s with
  | nil => exact Neutral.nil
  | cons c t ih =>
      exact Neutral.safe (h c (by simp)) (ih fun d hd => h d (by simp [hd]))

theorem neutral_ws {w : List Char} (hw : wsOnly w) : Neutral w :=
  neutral_of_safe fun c hc => ws_safe (hw c hc)

theorem num_safe {c : Char} (h : numChar c) : safeChar c := by
  simp only [numChar, List.mem_cons, List.not_mem_nil, or_false] at h
  rcases h with h | h | h | h | h | h | h | h | h | h | h | h | h | h | h <;>
    subst h <;> decide

/-- Every string generated by the JSON grammar is neutral for the scanner. -/
theorem json_neutral {k : JKind} {s : List Char} (h : Json k s) : Neutral s := by
  induction h with
  | vStr hcs => exact Neutral.str hcs Neutral.nil
  | vNum _ h2 => exact neutral_of_safe fun c hc => num_safe (h2 c hc)
  | vTrue => exact neutral_of_safe (by decide)
  | vFalse => exact neutral_of_safe (by decide)
  | vNull => exact neutral_of_safe (by decide)
  | vObj _ ih => exact ih
  | vArr _ ih => exact ih
  | objEmpty hw => exact Neutral.brace (neutral_ws hw) Neutral.nil
  | objMembers _ ih => exact Neutral.brace ih Neutral.nil
  | membersOne _ ih => exact ih
  | membersCons _ _ ih1 ih2 =>
      exact neutral_append ih1
        (Neutral.safe (show safeChar ',' from by decide) ih2)
  | memberMk hw1 hcs hw2 _ ih =>
      have h := neutral_append (neutral_ws hw1)
        (Neutral.str hcs (neutral_append (neutral_ws hw2)
          (Neutral.safe (show safeChar ':' from by decide) ih)))
      simpa [List.append_assoc] using h
  | arrEmpty hw =>
      exact Neutral.safe (show safeChar '[' from by decide)
        (neutral_append (neutral_ws hw)
          (Neutral.safe (show safeChar ']' from by decide) Neutral.nil))
  | arrElems _ ih =>
      exact Neutral.safe (show safeChar '[' from by decide)
        (neutral_append ih
          (Neutral.safe (show safeChar ']' from by decide) Neutral.nil))
  | elementsOne _ ih => exact ih
  | elementsCons _ _ ih1 ih2 =>
      exact neutral_append ih1
        (Neutral.safe (show safeChar ',' from by decide) ih2)
  | elementMk hw1 _ hw2 ih =>
      have h := neutral_append (neutral_ws hw1)
        (neutral_append ih (neutral_ws hw2))
      simpa [List.append_assoc] using h

/-- Shape of an object literal: an opening brace, a neutral interior, a
closing brace. -/
theorem obj_shape {s : List Char} (h : JsonObjectText s) :
    ∃ inner, Neutral inner ∧ s = '{' :: inner ++ ['}'] := by
  cases h with
  | objEmpty hw => exact ⟨_, neutral_ws hw, rfl⟩
  | objMembers hm => exact ⟨_, json_neutral hm, rfl⟩

@[simp] theorem runSplit_nil (st : SplitSt) : runSplit st [] = st := rfl

theorem runSplit_cons (st : SplitSt) (c : Char) (l : List Char) :
    runSplit st (c :: l) = runSplit (splitStep st c) l := rfl

theorem runSplit_append (st : SplitSt) (a b : List Char) :
    runSplit st (a ++ b) = runSplit (runSplit st a) b := by
  simp [runSplit, List.foldl_append]

theorem splitStep_push_safe {c : Char} (hc : safeChar c)
    (parts part d b) :
    splitStep ⟨parts, part, d, b, false⟩ c = ⟨parts, part ++ [c], d, b, false⟩ := by
  obtain ⟨h1, h2, h3, h4⟩ := hc
  simp [splitStep, h1, h2, h3, h4]

theorem splitStep_instring {c : Char} (h3 : c ≠ '\"') (h4 : c ≠ '\\')
    (parts part d) :
    splitStep ⟨parts, part, d, true, false⟩ c =
      ⟨parts, part ++ [c], d, true, false⟩ := by
  simp only [splitStep, Bool.false_eq_true, if_false, h3, h4, if_true]
  split <;> simp_all

theorem splitStep_escape (parts part d b c) :
    splitStep ⟨parts, part, d, b, true⟩ c = ⟨parts, part ++ [c], d, b, false⟩ := by
  simp [splitStep]

theorem splitStep_backslash_instring (parts part d) :
    splitStep ⟨parts, part, d, true, false⟩ '\\' =
      ⟨parts, part ++ ['\\'], d, true, true⟩ := by
  simp [splitStep]

theorem splitStep_quote (parts part d b) :
    splitStep ⟨parts, part, d, b, false⟩ '\"' =
      ⟨parts, part ++ ['\"'], d, !b, false⟩ := by
  simp [splitStep, show ('\"' : Char) ≠ '\\' from by decide]

theorem splitStep_open (parts part) (d : Int) :
    splitStep ⟨parts, part, d, false, false⟩ '{' =
      ⟨parts, part ++ ['{'], d + 1, false, false⟩ := by
  simp [splitStep, show ('{' : Char) ≠ '\\' from by decide,
    show ('{' : Char) ≠ '\"' from by decide]

theorem splitStep_close_noemit (parts part) {d : Int} (hd : ¬d - 1 ≤ 0) :
    splitStep ⟨parts, part, d, false, false⟩ '}' =
      ⟨parts, part ++ ['}'], d - 1, false, false⟩ := by
  simp [splitStep, show ('}' : Char) ≠ '\\' from by decide,
    show ('}' : Char) ≠ '\"' from by decide,
    show ('}' : Char) ≠ '{' from by decide, hd]

theorem splitStep_close_emit (parts part) {d : Int} (hd : d - 1 ≤ 0) :
    splitStep ⟨parts, part, d, false, false⟩ '}' =
      ⟨parts ++ (if trimChars (part ++ ['}']) = [] then []
        else [trimChars (part ++ ['}'])]), [], 0, false, false⟩ := by
  simp [splitStep, show ('}' : Char) ≠ '\\' from by decide,
    show ('}' : Char) ≠ '\"' from by decide,
    show ('}' : Char) ≠ '{' from by decide, hd]

/-- Scanning the contents of a string literal only accumulates text. -/
theorem run_strcontent {cs : List Char} (h : StrContent cs) :
    ∀ parts part d,
      runSplit ⟨parts, part, d, true, false⟩ cs =
        ⟨parts, part ++ cs, d, true, false⟩ := by
  induction h with
  | nil => intro parts part d; simp
  | chr h1 h2 _ ih =>
      intro parts part d
      rw [runSplit_cons, splitStep_instring h1 h2, ih]
      simp
  | esc _ ih =>
      intro parts part d
      rw [runSplit_cons, splitStep_backslash_instring, runSplit_cons,
        splitStep_escape, ih]
      simp

/-- Scanning a neutral sequence at positive depth only accumulates text. -/
theorem run_neutral {s : List Char} (h : Neutral s) :
    ∀ parts part (d : Int), 1 ≤ d →
      runSplit ⟨parts, part, d, false, false⟩ s =
        ⟨parts, part ++ s, d, false, false⟩ := by
  induction h with
  | nil => intro parts part d _; simp
  | safe hc _ ih =>
      intro parts part d hd
      rw [runSplit_cons, splitStep_push_safe hc, ih _ _ _ hd]
      simp
  | @str cs rest hcs _ ih =>
      intro parts part d hd
      have h1 : runSplit ⟨parts, part, d, false, false⟩ ('\"' :: cs) =
          ⟨parts, part ++ '\"' :: cs, d, true, false⟩ := by
        rw [runSplit_cons, splitStep_quote]
        simp only [Bool.not_false]
        simpa using run_strcontent hcs parts (part ++ ['\"']) d
      rw [runSplit_append, h1, runSplit_cons, splitStep_quote]
      simp only [Bool.not_true]
      rw [ih _ _ _ hd]
      simp
  | @brace inner rest _ _ ih1 ih2 =>
      intro parts part d hd
      have h1 : runSplit ⟨parts, part, d, false, false⟩ ('{' :: inner) =
          ⟨parts, (part ++ ['{']) ++ inner, d + 1, false, false⟩ := by
        rw [runSplit_cons, splitStep_open]
        exact ih1 _ _ _ (by omega)
      rw [runSplit_append, h1, runSplit_cons,
        splitStep_close_noemit _ _ (by omega)]
      have hdd : d + 1 - 1 = d := by omega
      rw [hdd, ih2 _ _ _ hd]
      simp

theorem dropWhile_ws_append {w : List Char} (hw : wsOnly w) (l : List Char) :
    (w ++ l).dropWhile isWs = l.dropWhile isWs := by
  induction w with
  | nil => simp
  | cons c t ih =>
      have hc : isWs c = true := hw c (by simp)
      have ht : wsOnly t := fun d hd => hw d (by simp [hd])
      simp [List.dropWhile_cons, hc, ih ht]

theorem trim_ws_append {w : List Char} (hw : wsOnly w) (l : List Char) :
    trimChars (w ++ l) = trimChars l := by
  unfold trimChars
  rw [dropWhile_ws_append hw]

theorem trim_wsOnly {w : List Char} (hw : wsOnly w) : trimChars w = [] := by
  have h := trim_ws_append hw []
  simpa using h

theorem trim_brace (inner : List Char) :
    trimChars (('{' :: inner) ++ ['}']) = ('{' :: inner) ++ ['}'] := by
  simp [trimChars, List.dropWhile_cons,
    show isWs '{' = false from by decide,
    show isWs '}' = false from by decide]

/-- Scanning a complete object literal at top level, with only whitespace
accumulated so far, emits exactly that literal as a part and returns to the
clean top-level state. -/
theorem run_obj_top {o : List Char} (ho : JsonObjectText o) :
    ∀ parts part, wsOnly part →
      runSplit ⟨parts, part, 0, false, false⟩ o =
        ⟨parts ++ [o], [], 0, false, false⟩ := by
  obtain ⟨inner, hinner, rfl⟩ := obj_shape ho
  intro parts part hpart
  have h1 : runSplit ⟨parts, part, 0, false, false⟩ ('{' :: inner) =
      ⟨parts, (part ++ ['{']) ++ inner, 0 + 1, false, false⟩ := by
    rw [runSplit_cons, splitStep_open]
    exact run_neutral hinner _ _ _ (by omega)
  rw [show ('{' :: inner ++ ['}'] : List Char) = ('{' :: inner) ++ ['}'] from rfl,
    runSplit_append, h1, runSplit_cons,
    splitStep_close_emit _ _ (by omega)]
  have hshape : (((part ++ ['{']) ++ inner) ++ ['}'] : List Char) =
      part ++ (('{' :: inner) ++ ['}']) := by
    simp
  rw [runSplit_nil, hshape, trim_ws_append hpart, trim_brace]
  simp

/-- Scanning whitespace (or any safe characters) never changes the scan
flags or depth. -/
theorem run_safe_chars {s : List Char} (h : ∀ c ∈ s, safeChar c) :
    ∀ parts part d b,
      runSplit ⟨parts, part, d, b, false⟩ s = ⟨parts, part ++ s, d, b, false⟩ := by
  induction s with
  | nil => intro parts part d b; simp
  | cons c t ih =>
      intro parts part d b
      rw [runSplit_cons, splitStep_push_safe (h c (by simp)),
        ih (fun e he => h e (by simp [he]))]
      simp

theorem run_ws {w : List Char} (hw : wsOnly w) :
    ∀ parts part d b,
      runSplit ⟨parts, part, d, b, false⟩ w = ⟨parts, part ++ w, d, b, false⟩ :=
  run_safe_chars fun c hc => ws_safe (hw c hc)

/-- Scanning a concatenation of object literals with interleaved trailing
whitespace emits exactly the literals, in order. -/
theorem run_objs (objs : List (List Char × List Char))
    (h : ∀ p ∈ objs, JsonObjectText p.1 ∧ wsOnly p.2) :
    ∀ parts part, wsOnly part →
      ∃ part', wsOnly part' ∧
        runSplit ⟨parts, part, 0, false, false⟩ (concatObjs objs) =
          ⟨parts ++ objs.map Prod.fst, part', 0, false, false⟩ := by
  induction objs with
  | nil =>
      intro parts part hpart
      exact ⟨part, hpart, by simp [concatObjs]⟩
  | cons p rest ih =>
      intro parts part hpart
      obtain ⟨ho, hw⟩ := h p (by simp)
      have hrest : ∀ q ∈ rest, JsonObjectText q.1 ∧ wsOnly q.2 :=
        fun q hq => h q (by simp [hq])
      have hcat : concatObjs (p :: rest) = (p.1 ++ p.2) ++ concatObjs rest := by
        simp [concatObjs]
      rw [hcat, runSplit_append, runSplit_append, run_obj_top ho _ _ hpart,
        run_ws hw]
      obtain ⟨part', hpart', hrun⟩ := ih hrest (parts ++ [p.1]) ([] ++ p.2)
        (by simpa using hw)
      rw [hrun]
      exact ⟨part', hpart', by simp⟩

/-! ### The claims -/

/-- C1: for every input that is a well-formed concatenation of N JSON
object literals — arbitrary whitespace around and between them, arbitrary
brace/quote nesting, strings that may contain literal braces —
`split_json_parts` returns `Ok` with exactly the N object literals, in the
original left-to-right order (so each returned part is one of the
hypothesised well-formed literals, hence independently valid JSON). -/
theorem split_json_parts_wellformed_concat
    (ws0 : List Char) (objs : List (List Char × List Char)) (n : Nat)
    (hws0 : wsOnly ws0)
    (hobjs : ∀ p ∈ objs, JsonObjectText p.1 ∧ wsOnly p.2) :
    split_json_parts (ws0 ++ concatObjs objs) n = .ok (objs.map Prod.fst) := by
  obtain ⟨part', hp', hrun⟩ := run_objs objs hobjs [] ws0 hws0
  have hfull : runSplit initSplitSt (ws0 ++ concatObjs objs) =
      ⟨objs.map Prod.fst, part', 0, false, false⟩ := by
    rw [runSplit_append,
      show initSplitSt = ⟨[], [], 0, false, false⟩ from rfl,
      run_ws hws0 [] [] 0 false]
    simpa using hrun
  unfold split_json_parts
  rw [hfull]
  simp [trim_wsOnly hp']

/-- Witness for C1 at the concrete input `" \x7b\x7d "`. -/
theorem split_json_parts_wellformed_concat_witness :
    split_json_parts ([' '] ++ concatObjs [(['{', '}'], [' '])]) 1 =
      .ok [['{', '}']] := by
  refine split_json_parts_wellformed_concat [' '] [(['{', '}'], [' '])] 1
    (by decide) ?_
  intro p hp
  rw [List.mem_singleton] at hp
  subst hp
  exact ⟨@Json.objEmpty [] (by decide), by decide⟩

/-- C9: leading garbage before an object literal is not rejected — it is
silently merged into the front of the next emitted part — while
non-whitespace text after the last emitted object is a trailing-garbage
error. -/
theorem leading_garbage_merged_trailing_garbage_rejected :
    split_json_parts ['g', 'a', 'r', 'b', 'a', 'g', 'e', ' ', '{', '}'] 1 =
      .ok [['g', 'a', 'r', 'b', 'a', 'g', 'e', ' ', '{', '}']] ∧
    split_json_parts ['{', '}', ' ', 'g', 'a', 'r', 'b', 'a', 'g', 'e'] 1 =
      .error "Trailing garbage at end of JSON data." :=
  ⟨rfl, rfl⟩

/-- C10: `Report::fail` builds a new Report from a clone of its receiver:
`failed` is set, exactly the given message is appended to the messages, and
the entries, the `vulnerable` flag and the timestamp are unchanged (the
receiver, taken by shared reference, is itself never mutated). -/
theorem report_fail_frame (r : Report) (m : String) :
    (r.fail m).failed = true ∧ (r.fail m).messages = r.messages ++ [m] ∧
    (r.fail m).entries = r.entries ∧
    (r.fail m).vulnerable = r.vulnerable ∧
    (r.fail m).stamp = r.stamp :=
  ⟨rfl, rfl, rfl, rfl, rfl⟩

/-- C6: every Report reachable through `new`, `add`, `add_message` and
`fail` is vulnerable iff at least one of its entries is vulnerable; in
particular a Report without entries is never vulnerable. -/
theorem report_vulnerable_iff (r : Report) (h : ReportReachable r) :
    r.vulnerable = true ↔ ∃ e ∈ r.entries, e.vulnerable = true := by
  induction h with
  | new stamp => simp [Report.new]
  | add entry _ ih =>
      simp only [Report.add, Bool.or_eq_true, ih, List.mem_append,
        List.mem_singleton]
      constructor
      · rintro (⟨e, he, hv⟩ | hv)
        · exact ⟨e, Or.inl he, hv⟩
        · exact ⟨entry, Or.inr rfl, hv⟩
      · rintro ⟨e, he | rfl, hv⟩
        · exact Or.inl ⟨e, he, hv⟩
        · exact Or.inr hv
  | add_message msg _ ih => simpa [Report.add_message] using ih
  | fail msg _ ih => simpa [Report.fail, Report.add_message] using ih

/-- Witness for C6 at a concrete reachable Report. -/
theorem report_vulnerable_iff_witness :
    (Report.new 0).vulnerable = true ↔
      ∃ e ∈ (Report.new 0).entries, e.vulnerable = true :=
  report_vulnerable_iff _ (ReportReachable.new 0)

/-- Scanning a directory whose entries all stat successfully adds exactly
those passing the code's inclusion test, in order. -/
theorem enumDirSteps_ents (report : Report) (p : String) (ents : List DirEnt) :
    ∀ bins, enumDirSteps report p (ents.map DirStep.ent) bins =
      .ok (bins ++ (ents.filter dirEntryAdd).map DirEnt.path) := by
  induction ents with
  | nil => intro bins; simp [enumDirSteps]
  | cons d rest ih =>
      intro bins
      by_cases hd : dirEntryAdd d <;>
        simp [enumDirSteps, hd, ih, List.filter_cons]

/-- C8 counterexample: a directory entry that is not a regular file (file
type `other`, e.g. a fifo or socket) but has execute bits set is included
by the code, although the claim admits only regular files. -/
theorem dir_nonregular_included_counterexample :
    enumDirSteps (Report.new 0) "d"
        [DirStep.ent { path := "f", ftype := FType.other, mode := 0o755 }] [] =
      .ok ["f"] ∧
    claimDirIncluded { path := "f", ftype := FType.other, mode := 0o755 } =
      false :=
  ⟨rfl, rfl⟩

/-- C8 (amended): a configured directory contributes exactly its immediate
non-directory entries with at least one execute-permission bit set —
regardless of whether they are regular files — and a configured path that
is itself a file is included directly, regardless of its own permission
bits. -/
theorem enumerate_dir_and_file (report : Report) (p : String)
    (ents : List DirEnt) (bins : List String) (mode : Nat) :
    enumerate_bins [(p, FsNode.dir (ents.map DirStep.ent))] report bins =
      .ok (report, bins ++ (ents.filter dirEntryAdd).map DirEnt.path) ∧
    enumerate_bins [(p, FsNode.file mode)] report bins =
      .ok (report, bins ++ [p]) := by
  constructor
  · simp [enumerate_bins, enumDirSteps_ents report p ents bins]
  · rfl

/-- The retry loop when every attempt fails, from any attempt counter
`j < m`: it performs the remaining `m - j` attempts, sleeping
`backoff (i)` after the `i`-th failed attempt. -/
theorem retryFrom_all_fail (attempt : Nat → AttemptResult) (m : Nat)
    (hfail : ∀ i, (attempt i).isFailure = true) :
    ∀ n j, j < m → m - j = n + 1 →
      retryFrom attempt m j =
        { report := (attempt (m - 1)).report,
          nAttempts := m - j,
          sleeps := (List.range (m - j - 1)).map (fun k => backoff (j + 1 + k)) } := by
  intro n
  induction n with
  | zero =>
      intro j hj hmj
      rw [retryFrom]
      simp only [hfail j, Bool.true_eq_false, if_false]
      have hge : j + 1 ≥ m := by omega
      rw [dif_pos hge]
      have h2 : j = m - 1 := by omega
      subst h2
      have h3 : m - (m - 1) = 1 := by omega
      simp [h3]
  | succ n ih =>
      intro j hj hmj
      rw [retryFrom]
      simp only [hfail j, Bool.true_eq_false, if_false]
      have hlt : ¬j + 1 ≥ m := by omega
      rw [dif_neg hlt, ih (j + 1) (by omega) (by omega)]
      simp only []
      congr 1
      · omega
      · have hn : m - j - 1 = (m - (j + 1) - 1) + 1 := by omega
        rw [hn, List.range_succ_eq_map, List.map_cons, List.map_map]
        refine congrArg₂ List.cons ?_ ?_
        · simp
        · apply List.map_congr_left
          intro a _
          simp only [Function.comp_apply, Nat.succ_eq_add_one]
          congr 1
          omega

/-- C3: with a positive configured retry count `t` and an audit that fails
on every attempt, the retry loop performs exactly `min t 30` attempts —
never fewer, never more — and the backoff slept after the `k`-th failed
attempt (1-indexed; the list below is indexed from `k - 1 = 0`) is exactly
`min (2 * 2 ^ (k - 1)) 120` seconds. -/
theorem retry_gives_up_exactly (t : Nat) (attempt : Nat → AttemptResult)
    (ht : 1 ≤ t) (hfail : ∀ i, (attempt i).isFailure = true) :
    (run_retry t attempt).nAttempts = min t 30 ∧
    (run_retry t attempt).sleeps =
      (List.range (min t 30 - 1)).map (fun k => min (2 * 2 ^ k) 120) := by
  have hm : 0 < min t 30 := by omega
  have hmj : min t 30 - 0 = (min t 30 - 1) + 1 := by omega
  have h := retryFrom_all_fail attempt (min t 30) hfail (min t 30 - 1) 0 hm hmj
  unfold run_retry
  rw [h]
  refine ⟨by simp, ?_⟩
  simp only [Nat.sub_zero]
  apply List.map_congr_left
  intro a _
  simp only [Nat.zero_add, backoff, Nat.one_shiftLeft]
  rw [show 1 + a - 1 = a from by omega, Nat.mul_comm]

/-- Witness for C3: three configured tries, every attempt an `Err`. -/
theorem retry_gives_up_exactly_witness :
    (run_retry 3 (fun _ => .err (Report.new 0))).nAttempts = min 3 30 ∧
    (run_retry 3 (fun _ => .err (Report.new 0))).sleeps =
      (List.range (min 3 30 - 1)).map (fun k => min (2 * 2 ^ k) 120) :=
  retry_gives_up_exactly 3 _ (by decide) (fun _ => rfl)

/-- C7 counterexample: a failed Report that contains an entry renders with
no per-entry line at all, although the claim requires one line per entry
for every Report, failed or not. -/
theorem render_failed_no_entry_line :
    ¬ (claimEntryLine
        { path := "b", vulnerable := false, json := "j", json_pretty := "p" }).data
      <:+: (Report.render toString
        { stamp := 0,
          entries := [{ path := "b", vulnerable := false, json := "j",
                        json_pretty := "p" }],
          messages := [], failed := true, vulnerable := false }).data := by
  decide

/-- C7 (amended): the rendered form of a Report is the outcome-classifying
header, then — only when the Report is not failed — one line per entry
(path and Ok/VULNERABLE) followed by a blank line, then all accumulated
messages, then — only when the Report is not failed — a pretty-printed
JSON detail block per vulnerable entry, each preceded by its path.  Failed
reports render without the entry lines and without the detail blocks. -/
theorem render_decomposition (fmtDate : Nat → String) (r : Report) :
    Report.render fmtDate r =
      claimHeader fmtDate r ++
        (if r.failed then "" else claimEntryLines r ++ "\n") ++
        claimMessageLines r ++
        (if r.failed then "" else claimDetailBlocks r) := by
  unfold Report.render claimHeader claimEntryLines claimEntryLine
    claimMessageLines claimDetailBlocks
  by_cases hf : r.failed <;> simp [hf, String.append_assoc]

set_option linter.unnecessarySeqFocus false in
/-- One implementation scan step agrees with one spec scan step on depth,
in-string flag and escape flag, provided the spec depth stays
nonnegative. -/
theorem splitStep_tracks_spec (parts : List (List Char)) (part : List Char)
    (dep : Int) (ins esc : Bool) (c : Char)
    (hnn : 0 ≤ (specStep ⟨dep, ins, esc⟩ c).depth) :
    (splitStep ⟨parts, part, dep, ins, esc⟩ c).indent =
      (specStep ⟨dep, ins, esc⟩ c).depth ∧
    (splitStep ⟨parts, part, dep, ins, esc⟩ c).inString =
      (specStep ⟨dep, ins, esc⟩ c).inString ∧
    (splitStep ⟨parts, part, dep, ins, esc⟩ c).escape =
      (specStep ⟨dep, ins, esc⟩ c).escape := by
  cases esc <;> cases ins <;>
    by_cases h1 : c = '\\' <;> by_cases h2 : c = '\"' <;>
    by_cases h3 : c = '{' <;> by_cases h4 : c = '}' <;>
    simp_all [splitStep, specStep] <;> split_ifs <;> simp_all <;> omega

/-- A nonnegativity flag that is already false stays false. -/
theorem foldl_checkedStep_false (input : List Char) :
    ∀ sp : SpecScanSt, (input.foldl checkedStep (sp, false)).2 = false := by
  induction input with
  | nil => intro sp; simp
  | cons c rest ih =>
      intro sp
      rw [List.foldl_cons, show checkedStep (sp, false) c =
        ((specStep sp c), false) from by simp [checkedStep]]
      exact ih _

/-- As long as the spec scan's cumulative depth stays nonnegative, the
implementation scan's depth, in-string flag and escape flag agree with the
spec scan's over a whole input. -/
theorem run_tracks_spec (input : List Char) :
    ∀ (parts : List (List Char)) (part : List Char) (sp : SpecScanSt),
      (checkedFold sp input).2 = true →
      (runSplit ⟨parts, part, sp.depth, sp.inString, sp.escape⟩ input).indent =
          (checkedFold sp input).1.depth ∧
        (runSplit ⟨parts, part, sp.depth, sp.inString, sp.escape⟩ input).inString =
          (checkedFold sp input).1.inString ∧
        (runSplit ⟨parts, part, sp.depth, sp.inString, sp.escape⟩ input).escape =
          (checkedFold sp input).1.escape := by
  induction input with
  | nil => intro parts part sp _; simp [checkedFold]
  | cons c rest ih =>
      intro parts part sp h
      by_cases hd : (0 : Int) ≤ (specStep sp c).depth
      · have hc : checkedStep (sp, true) c = (specStep sp c, true) := by
          simp [checkedStep, hd]
        simp only [checkedFold, List.foldl_cons, hc] at h ⊢
        obtain ⟨h1, h2, h3⟩ :=
          splitStep_tracks_spec parts part sp.depth sp.inString sp.escape c hd
        have heta : splitStep ⟨parts, part, sp.depth, sp.inString, sp.escape⟩ c =
            ⟨(splitStep ⟨parts, part, sp.depth, sp.inString, sp.escape⟩ c).parts,
             (splitStep ⟨parts, part, sp.depth, sp.inString, sp.escape⟩ c).part,
             (specStep sp c).depth, (specStep sp c).inString,
             (specStep sp c).escape⟩ := by
          rw [← h1, ← h2, ← h3]
        rw [runSplit_cons, heta]
        have hrest := ih (splitStep ⟨parts, part, sp.depth, sp.inString, sp.escape⟩ c).parts
          (splitStep ⟨parts, part, sp.depth, sp.inString, sp.escape⟩ c).part
          (specStep sp c) (by simpa [checkedFold] using h)
        simpa [checkedFold] using hrest
      · have hc : checkedStep (sp, true) c = (specStep sp c, false) := by
          simp [checkedStep, hd]
        simp only [checkedFold, List.foldl_cons, hc] at h
        rw [foldl_checkedStep_false rest (specStep sp c)] at h
        exact absurd h (by simp)

/-- C4 counterexample: the input consisting of one closing brace ends the
claim's cumulative scan at depth `-1 ≠ 0`, yet `split_json_parts` returns
`Ok` (the scanner clamps its counter to zero when it emits a part) instead
of the claimed "mismatched braces" error. -/
theorem negative_depth_not_an_error :
    (specRun ['}']).depth ≠ 0 ∧ split_json_parts ['}'] 1 = .ok [['}']] :=
  ⟨by decide, rfl⟩

/-- C4 (amended): if the spec scan's cumulative brace depth stays
nonnegative after every prefix, ends nonzero, and the scan ends outside any
string with no pending escape, then `split_json_parts` returns the
"mismatched braces" error (naming that final depth).  Excess closing braces
— prefixes with negative cumulative depth — are instead clamped to depth
zero at part boundaries and do not produce this error. -/
theorem mismatched_braces_on_positive_depth (input : List Char) (n : Nat)
    (hchk : (specRunChecked input).2 = true)
    (hdep : (specRunChecked input).1.depth ≠ 0)
    (hstr : (specRunChecked input).1.inString = false)
    (hesc : (specRunChecked input).1.escape = false) :
    split_json_parts input n =
      .error ("Mismatched braces in JSON data (indent = " ++
        toString (specRunChecked input).1.depth ++ ").") := by
  obtain ⟨h1, h2, h3⟩ := run_tracks_spec input [] [] initSpecScanSt hchk
  unfold split_json_parts
  rw [show initSplitSt =
    ⟨[], [], initSpecScanSt.depth, initSpecScanSt.inString,
      initSpecScanSt.escape⟩ from rfl]
  rw [specRunChecked] at hdep hstr hesc
  simp [h1, h2, h3, hesc, hstr, hdep]
  rfl

/-- Witness for C4 at the concrete input `"\x7b"`. -/
theorem mismatched_braces_on_positive_depth_witness :
    split_json_parts ['{'] 1 =
      .error "Mismatched braces in JSON data (indent = 1)." := by
  rw [mismatched_braces_on_positive_depth ['{'] 1
    (by decide) (by decide) (by decide) (by decide)]
  decide

theorem fail_failed_and_message (r : Report) (m : String) :
    (r.fail m).failed = true ∧ (r.fail m).messages ≠ [] :=
  ⟨rfl, by simp [Report.fail, Report.add_message]⟩

/-- Every error produced by the directory-entry loop is a `Report::fail` of
the current report. -/
theorem enumDirSteps_error {report : Report} {p : String} :
    ∀ steps bins e, enumDirSteps report p steps bins = .error e →
      ∃ m, e = report.fail m := by
  intro steps
  induction steps with
  | nil => intro bins e h; simp [enumDirSteps] at h
  | cons s rest ih =>
      intro bins e h
      cases s with
      | nextErr msg =>
          simp only [enumDirSteps, Except.error.injEq] at h
          exact ⟨_, h.symm⟩
      | metaErr msg =>
          simp only [enumDirSteps, Except.error.injEq] at h
          exact ⟨_, h.symm⟩
      | ent d =>
          simp only [enumDirSteps] at h
          exact ih _ _ h

/-- Every error produced by the enumeration loop is a `Report::fail`. -/
theorem enumerate_bins_error :
    ∀ nodes (report : Report) bins e,
      enumerate_bins nodes report bins = .error e →
      ∃ r m, e = Report.fail r m := by
  intro nodes
  induction nodes with
  | nil => intro report bins e h; simp [enumerate_bins] at h
  | cons pn rest ih =>
      intro report bins e h
      obtain ⟨p, node⟩ := pn
      cases node with
      | notFound =>
          simp only [enumerate_bins] at h
          exact ih _ _ _ h
      | statError msg =>
          simp only [enumerate_bins] at h
          exact ih _ _ _ h
      | file mode =>
          simp only [enumerate_bins] at h
          exact ih _ _ _ h
      | dirOpenError msg =>
          simp only [enumerate_bins, Except.error.injEq] at h
          exact ⟨report, _, h.symm⟩
      | dir steps =>
          simp only [enumerate_bins] at h
          cases hs : enumDirSteps report p steps bins with
          | error e2 =>
              rw [hs] at h
              simp only [Except.error.injEq] at h
              obtain ⟨m, hm⟩ := enumDirSteps_error steps bins e2 hs
              exact ⟨report, m, h ▸ hm⟩
          | ok bins2 =>
              rw [hs] at h
              exact ih _ _ _ h

/-- Every error produced by the decode loop is a `Report::fail`. -/
theorem auditParts_error {V : Type} (lib : JsonLib V) :
    ∀ l (report : Report) e, auditParts lib l report = .error e →
      ∃ r m, e = Report.fail r m := by
  intro l
  induction l with
  | nil => intro report e h; simp [auditParts] at h
  | cons pj rest ih =>
      intro report e h
      obtain ⟨path, json_part⟩ := pj
      simp only [auditParts] at h
      cases hfs : lib.from_str (trimStr json_part) with
      | error msg =>
          rw [hfs] at h
          simp only [Except.error.injEq] at h
          exact ⟨report, _, h.symm⟩
      | ok v =>
          rw [hfs] at h
          simp only [] at h
          cases hpp : lib.to_string_pretty v with
          | error msg =>
              rw [hpp] at h
              simp only [Except.error.injEq] at h
              exact ⟨report, _, h.symm⟩
          | ok jp =>
              rw [hpp] at h
              exact ih _ _ h

/-- C2 counterexample: with one audited binary whose JSON part decodes
fine but whose stderr is not valid UTF-8, the error Report returned by
`audit_binaries` retains the entry added earlier in the same attempt —
partial entries are not discarded (`Report::fail` clones its receiver,
entries included). -/
theorem audit_error_keeps_entries :
    audit_binaries sampleConfig stubJsonLib stderrUtf8Env = .error keptReport ∧
      keptReport.entries ≠ [] :=
  ⟨rfl, by simp [keptReport]⟩

/-- C2 (amended): whenever `audit_binaries` returns on its error path —
subprocess spawn failure, non-UTF-8 output, JSON split failure, JSON decode
failure, count mismatch, or a directory-enumeration error — the returned
Report has `failed = true` and a nonempty message list carrying the
descriptive message.  Entries accumulated earlier in the same attempt are
retained in that Report (not discarded): `Report::fail` clones its
receiver. -/
theorem audit_binaries_error_report {V : Type} (config : Config)
    (lib : JsonLib V) (env : AuditEnv) (e : Report)
    (h : audit_binaries config lib env = .error e) :
    e.failed = true ∧ e.messages ≠ [] := by
  unfold audit_binaries at h
  cases he : enumerate_bins env.nodes (Report.new env.stamp) [] with
  | error e2 =>
      rw [he] at h
      simp only [Except.error.injEq] at h
      obtain ⟨r, m, hm⟩ := enumerate_bins_error env.nodes _ [] e2 he
      subst h
      exact hm ▸ fail_failed_and_message r m
  | ok pr =>
      obtain ⟨report, bins⟩ := pr
      rw [he] at h
      simp only [] at h
      by_cases hb : bins.isEmpty
      · simp [hb] at h
      · rw [if_neg (by simpa using hb)] at h
        cases ho : env.output with
        | error eo =>
            rw [ho] at h
            simp only [Except.error.injEq] at h
            subst h
            exact fail_failed_and_message _ _
        | ok out =>
          rw [ho] at h
          simp only [] at h
          cases hso : out.stdout with
          | error es =>
              rw [hso] at h
              simp only [Except.error.injEq] at h
              subst h
              exact fail_failed_and_message _ _
          | ok stdout =>
            rw [hso] at h
            simp only [] at h
            cases hsp : split_json_parts stdout.data bins.length with
            | error esp =>
                rw [hsp] at h
                simp only [Except.error.injEq] at h
                subst h
                exact fail_failed_and_message _ _
            | ok partsChars =>
              rw [hsp] at h
              simp only [] at h
              by_cases hlen :
                  (partsChars.map (fun l => String.mk l)).length ≠ bins.length
              · rw [if_pos hlen] at h
                simp only [Except.error.injEq] at h
                subst h
                exact fail_failed_and_message _ _
              · rw [if_neg hlen] at h
                cases hap : auditParts lib
                    (bins.zip (partsChars.map (fun l => String.mk l)))
                    (debugReport config out report) with
                | error ea =>
                    rw [hap] at h
                    simp only [Except.error.injEq] at h
                    obtain ⟨r, m, hm⟩ := auditParts_error lib _ _ ea hap
                    subst h
                    exact hm ▸ fail_failed_and_message r m
                | ok report2 =>
                  rw [hap] at h
                  simp only [] at h
                  cases hse : out.stderr with
                  | error ese =>
                      rw [hse] at h
                      simp only [Except.error.injEq] at h
                      subst h
                      exact fail_failed_and_message _ _
                  | ok stderr =>
                      rw [hse] at h
                      simp at h

/-- Witness for C2 at the concrete stderr-decode-failure environment. -/
theorem audit_binaries_error_report_witness :
    keptReport.failed = true ∧ keptReport.messages ≠ [] :=
  audit_binaries_error_report sampleConfig stubJsonLib stderrUtf8Env
    keptReport rfl

/-- Successful enumeration never adds entries or changes the vulnerable
flag: only warning messages are appended. -/
theorem enumerate_bins_ok_entries :
    ∀ nodes (report : Report) bins r' bins',
      enumerate_bins nodes report bins = .ok (r', bins') →
      r'.entries = report.entries ∧ r'.vulnerable = report.vulnerable := by
  intro nodes
  induction nodes with
  | nil =>
      intro report bins r' bins' h
      simp only [enumerate_bins, Except.ok.injEq, Prod.mk.injEq] at h
      rw [← h.1]
      exact ⟨rfl, rfl⟩
  | cons pn rest ih =>
      intro report bins r' bins' h
      obtain ⟨p, node⟩ := pn
      cases node with
      | notFound =>
          simp only [enumerate_bins] at h
          simpa [Report.add_message] using ih _ _ _ _ h
      | statError msg =>
          simp only [enumerate_bins] at h
          simpa [Report.add_message] using ih _ _ _ _ h
      | file mode =>
          simp only [enumerate_bins] at h
          exact ih _ _ _ _ h
      | dirOpenError msg => simp [enumerate_bins] at h
      | dir steps =>
          simp only [enumerate_bins] at h
          cases hs : enumDirSteps report p steps bins with
          | error e2 => rw [hs] at h; simp at h
          | ok bins2 =>
              rw [hs] at h
              exact ih _ _ _ _ h

/-- The debug exit-status diagnostic never adds entries or changes the
vulnerable flag. -/
theorem debugReport_entries (config : Config) (out : CmdOutput) (report : Report) :
    (debugReport config out report).entries = report.entries ∧
    (debugReport config out report).vulnerable = report.vulnerable := by
  unfold debugReport
  by_cases hd : config.debug <;>
    cases out.exitCode <;> simp [hd, Report.add_message]

/-- C5: whenever the splitter returns a number of JSON parts different from
the number of enumerated binaries, `audit_binaries` fails with the
count-mismatch message and the returned error Report contains zero
entries. -/
theorem count_mismatch_error_no_entries {V : Type} (config : Config)
    (lib : JsonLib V) (env : AuditEnv) (rep0 : Report) (bins : List String)
    (out : CmdOutput) (stdout : String) (partsChars : List (List Char))
    (h1 : enumerate_bins env.nodes (Report.new env.stamp) [] = .ok (rep0, bins))
    (h2 : bins ≠ [])
    (h3 : env.output = .ok out)
    (h4 : out.stdout = .ok stdout)
    (h5 : split_json_parts stdout.data bins.length = .ok partsChars)
    (h6 : partsChars.length ≠ bins.length) :
    ∃ e, audit_binaries config lib env = .error e ∧
      e.failed = true ∧ e.entries = [] ∧
      e.messages.getLast? = some
        ("cargo-audit returned " ++ toString partsChars.length ++
          " JSON object(s) but " ++ toString bins.length ++
          " binary(ies) were audited") := by
  have hb : bins.isEmpty = false := by
    cases bins with
    | nil => exact absurd rfl h2
    | cons a l => rfl
  have hlen : (partsChars.map (fun l => String.mk l)).length ≠ bins.length := by
    simpa [List.length_map] using h6
  refine ⟨(debugReport config out rep0).fail
    ("cargo-audit returned " ++
      toString (partsChars.map (fun l => String.mk l)).length ++
      " JSON object(s) but " ++ toString bins.length ++
      " binary(ies) were audited"), ?_, rfl, ?_, ?_⟩
  · unfold audit_binaries
    rw [h1]
    simp only []
    rw [if_neg (show ¬bins.isEmpty = true from by simp [hb]), h3]
    simp only []
    rw [h4]
    simp only []
    rw [h5]
    simp only []
    rw [if_pos hlen]
  · have he := (enumerate_bins_ok_entries env.nodes (Report.new env.stamp)
      [] rep0 bins h1).1
    have hd := (debugReport_entries config out rep0).1
    simp [Report.fail, Report.add_message, hd, he, Report.new]
  · simp [Report.fail, Report.add_message, List.getLast?_concat,
      List.length_map]

/-- Witness for C5: one audited binary, empty stdout, zero JSON parts. -/
theorem count_mismatch_error_no_entries_witness :
    ∃ e, audit_binaries sampleConfig stubJsonLib mismatchEnv = .error e ∧
      e.failed = true ∧ e.entries = [] ∧
      e.messages.getLast? = some
        ("cargo-audit returned " ++ toString (0 : Nat) ++
          " JSON object(s) but " ++ toString (1 : Nat) ++
          " binary(ies) were audited") :=
  count_mismatch_error_no_entries sampleConfig stubJsonLib mismatchEnv
    (Report.new 0) ["bin1"]
    { exitCode := some 0, stdout := .ok "", stderr := .ok "" } "" []
    rfl (by decide) rfl rfl rfl (by decide)

end PeriodicAudit

-- sanity examples mirroring the unit tests in src/audit.rs
example :
    PeriodicAudit.split_json_parts
      [' ', ' ', '{', '\"', 'a', '\"', ':', '1', '}', ' ', ' '] 0 =
      .ok [['{', '\"', 'a', '\"', ':', '1', '}']] := by rfl

example :
    PeriodicAudit.split_json_parts
      ['{', '\"', 's', '\"', ':', '\"', '}', '{', '\"', '}', '{', '}'] 10 =
      .ok [['{', '\"', 's', '\"', ':', '\"', '}', '{', '\"', '}'], ['{', '}']] := by
  rfl

example :
    PeriodicAudit.split_json_parts ['{', '\"', 'a', '\"', ':', '\"', 'b', '}'] 1 =
      .error "Unterminated string in JSON data." := by rfl

example :
    PeriodicAudit.split_json_parts ['{', '\"', 'a', '\"', ':', '\"', 'b', '\\'] 1 =
      .error "Trailing backslash in JSON data." := by rfl

example :
    PeriodicAudit.split_json_parts ['{'] 1 =
      .error "Mismatched braces in JSON data (indent = 1)." := by rfl

example :
    PeriodicAudit.split_json_parts ['{', '}', ' ', 'g'] 1 =
      .error "Trailing garbage at end of JSON data." := by rfl
